import Mathlib

/-!
Verification development for the pigeon GraphQL content utility
(`src/index.ts`).  The TypeScript code is shallowly embedded: the
`Map<Typename, RegistrationStruct>` used by `createPigeon` is modelled as an
insertion-ordered association list with JavaScript `Map` semantics
(`set` on an existing key updates the value in place, `set` on a fresh key
appends; iteration follows insertion order), zod schemas are modelled as
functions returning `Except ZodError`, and the recursive fragment
collection — which in JavaScript has no visited-set and can overflow the
stack — is fuel-indexed, returning `none` when the call depth exceeds the
fuel.
-/

abbrev Typename := String

abbrev Scope := String

/-- Model of a `ZodError` thrown by a failing zod parse. -/
structure ZodError where
  issues : List String
deriving Repr, DecidableEq

/-- Model of a CMS record (and of a schema's transformed output): the
discriminating `__typename` plus an opaque payload standing for the other
fields. -/
structure Record where
  __typename : Typename
  payload : String
deriving Repr, DecidableEq

/-- Model of `zod.ZodSchema`: `parseAsync` either resolves with the
validated-and-transformed value or rejects with a `ZodError`. -/
abbrev ZodSchema := Record → Except ZodError Record

/-- `RegistrationStruct` of `src/index.ts`. -/
structure RegistrationStruct where
  __typename : Typename
  fragment : String
  dependencies : List Typename
  schema : ZodSchema
  scope : List Scope
  fragmentName : String

/-- `CreateRegistrationStruct` of `src/index.ts`: `dependencies` and
`scope` are optional. -/
structure CreateRegistrationStruct where
  __typename : Typename
  fragment : String
  schema : ZodSchema
  dependencies : Option (List Typename)
  scope : Option (List Scope)

/-- The component map: a JavaScript `Map<Typename, RegistrationStruct>`
modelled as an insertion-ordered association list. -/
abbrev ComponentMap := List (Typename × RegistrationStruct)

/-- `Map.prototype.get`: the value stored under `k`, if any. -/
def mapGet (m : ComponentMap) (k : Typename) : Option RegistrationStruct :=
  match m with
  | [] => none
  | (k', v) :: rest => if k' = k then some v else mapGet rest k

/-- `Map.prototype.set`: update in place when the key is present, append
otherwise (JavaScript `Map` keeps the original insertion position of an
updated key). -/
def mapSet (m : ComponentMap) (k : Typename) (v : RegistrationStruct) : ComponentMap :=
  match m with
  | [] => [(k, v)]
  | (k', v') :: rest => if k' = k then (k, v) :: rest else (k', v') :: mapSet rest k v

/-- `Map.prototype.has`. -/
def mapHas (m : ComponentMap) (k : Typename) : Bool :=
  (mapGet m k).isSome

/-- `Map.prototype.values()`, in insertion order. -/
def mapValues (m : ComponentMap) : List RegistrationStruct :=
  m.map Prod.snd

/-- Keys of the map are pairwise distinct — an invariant of every map a
pigeon instance builds. -/
abbrev KeysNodup (m : ComponentMap) : Prop :=
  (m.map Prod.fst).Nodup

/-- Every entry is stored under its registration's `__typename` — an
invariant of every map a pigeon instance builds, since `register` and
`scope` always use `component.__typename` as the key. -/
abbrev Paired (m : ComponentMap) : Prop :=
  ∀ p ∈ m, p.1 = p.2.__typename

/-- `createRegistration` of `src/index.ts`: derives `fragmentName` as
`` `${__typename}Fragment` `` and wraps the fragment body as
`` `fragment ${fragmentName} on ${__typename} {${fragment}}` ``. -/
def createRegistration (payload : CreateRegistrationStruct) : RegistrationStruct :=
  let fragmentName := payload.__typename ++ "Fragment"
  let fragment :=
    "fragment " ++ fragmentName ++ " on " ++ payload.__typename ++ " \x7b" ++
      payload.fragment ++ "\x7d"
  { __typename := payload.__typename
    dependencies := payload.dependencies.getD []
    fragment := fragment
    fragmentName := fragmentName
    schema := payload.schema
    scope := payload.scope.getD [] }

/-- The state of a pigeon instance: its `components` map. -/
abbrev PigeonState := ComponentMap

/-- `createPigeon` of `src/index.ts`: a fresh instance with an empty
`components` map. -/
def createPigeon : PigeonState := []

/-- `register` of `src/index.ts`: `components.set(component.__typename,
component)`, returning the instance. -/
def register (st : PigeonState) (component : RegistrationStruct) : PigeonState :=
  mapSet st component.__typename component

/-- The `scopedComponents` map built by `scope` of `src/index.ts`:
`components.forEach` in insertion order, keeping the values whose `scope`
array includes the requested scope, keyed by `value.__typename`. -/
def scopeComponents (components : PigeonState) (s : Scope) : ComponentMap :=
  components.foldl
    (fun acc p => if s ∈ p.2.scope then mapSet acc p.2.__typename p.2 else acc) []

/-- `query` of `src/index.ts`: one `...on KEY { ...FRAGMENTNAME }` line per
scoped component, joined by newlines. -/
def query (scopedComponents : ComponentMap) : String :=
  String.intercalate "\n"
    (scopedComponents.map
      (fun p => "...on " ++ p.1 ++ " \x7b ..." ++ p.2.fragmentName ++ " \x7d"))

/-- The `for` loop over `value.dependencies` inside
`recursivelyCollectFragments`, generic in the recursive call `f`: look
each dependency up in `components` and run `f` on it when it is
registered, threading `collected`. -/
def collectDepsWith (f : RegistrationStruct → ComponentMap → Option ComponentMap)
    (components : ComponentMap) :
    List Typename → ComponentMap → Option ComponentMap
  | [], collected => some collected
  | d :: rest, collected =>
      match mapGet components d with
      | none => collectDepsWith f components rest collected
      | some next =>
          match f next collected with
          | none => none
          | some collected' => collectDepsWith f components rest collected'

/-- `recursivelyCollectFragments` of `src/index.ts`, fuel-indexed: sets
`value` into `collected` under `value.__typename`, then recurses into each
registered dependency.  The JavaScript function has no visited-check, so
the recursion depth is genuinely unbounded on cyclic graphs; `none` models
exceeding the call-stack budget `fuel`. -/
def recursivelyCollectFragments (components : ComponentMap) :
    Nat → RegistrationStruct → ComponentMap → Option ComponentMap
  | 0, _, _ => none
  | Nat.succ fuel, value, collected =>
      collectDepsWith (fun next c => recursivelyCollectFragments components fuel next c)
        components value.dependencies (mapSet collected value.__typename value)

/-- The dependency loop instantiated with the recursive call at the given
fuel, as it runs inside `recursivelyCollectFragments`. -/
def collectDeps (components : ComponentMap) (fuel : Nat)
    (deps : List Typename) (collected : ComponentMap) : Option ComponentMap :=
  collectDepsWith (fun next c => recursivelyCollectFragments components fuel next c)
    components deps collected

/-- The loop in `fragments` of `src/index.ts`: fold
`recursivelyCollectFragments` over the scoped values, threading the shared
`map`. -/
def collectAll (components : ComponentMap) (values : List RegistrationStruct)
    (collected : ComponentMap) (fuel : Nat) : Option ComponentMap :=
  match values with
  | [] => some collected
  | v :: rest =>
      match recursivelyCollectFragments components fuel v collected with
      | none => none
      | some collected' => collectAll components rest collected' fuel

/-- `fragments` of `src/index.ts`: collect every scoped component's
transitive fragments into one map, then join the collected fragment
strings with newlines.  `none` when the recursion exceeds `fuel`. -/
def fragments (components scopedComponents : ComponentMap) (fuel : Nat) :
    Option String :=
  (collectAll components (mapValues scopedComponents) [] fuel).map
    (fun m => String.intercalate "\n" ((mapValues m).map RegistrationStruct.fragment))

/-- The `validationPromises` array built by `validate` of `src/index.ts`:
one pending parse per record whose `__typename` is a scoped component. -/
def validationPromises (scopedComponents : ComponentMap) (data : List Record) :
    List (Except ZodError Record) :=
  match data with
  | [] => []
  | value :: rest =>
      match mapGet scopedComponents value.__typename with
      | some component => component.schema value :: validationPromises scopedComponents rest
      | none => validationPromises scopedComponents rest

/-- `Promise.all`: resolves with every value when all resolve, rejects
with the first rejection otherwise. -/
def promiseAll (ps : List (Except ZodError Record)) : Except ZodError (List Record) :=
  match ps with
  | [] => Except.ok []
  | Except.error e :: _ => Except.error e
  | Except.ok v :: rest => (promiseAll rest).map (fun vs => v :: vs)

/-- `validate` of `src/index.ts`: build the promise list and await them
all. -/
def validate (scopedComponents : ComponentMap) (data : List Record) :
    Except ZodError (List Record) :=
  promiseAll (validationPromises scopedComponents data)

/-- The operations a pigeon instance exposes, for the frame claims:
`register`, and the three scoped read operations. -/
inductive PigeonOp where
  | register (component : RegistrationStruct)
  | scope (s : Scope)
  | query (s : Scope)
  | fragments (s : Scope) (fuel : Nat)
  | validate (s : Scope) (data : List Record)

/-- The observable outcome of one operation. -/
inductive PigeonOut where
  | instance_ : PigeonOut
  | scoped : ComponentMap → PigeonOut
  | text : String → PigeonOut
  | pending : Option String → PigeonOut
  | settled : Except ZodError (List Record) → PigeonOut

/-- One step of a pigeon instance: the state it leaves behind and what it
returns.  Only `register` writes to the `components` map; `scope` builds a
fresh `scopedComponents` map and the read operations work on that. -/
def step (st : PigeonState) : PigeonOp → PigeonState × PigeonOut
  | PigeonOp.register c => (register st c, PigeonOut.instance_)
  | PigeonOp.scope s => (st, PigeonOut.scoped (scopeComponents st s))
  | PigeonOp.query s => (st, PigeonOut.text (query (scopeComponents st s)))
  | PigeonOp.fragments s fuel =>
      (st, PigeonOut.pending (fragments st (scopeComponents st s) fuel))
  | PigeonOp.validate s data =>
      (st, PigeonOut.settled (validate (scopeComponents st s) data))


/-! ## Lemmas about the `Map` model -/

theorem mapGet_mem {m : ComponentMap} {k : Typename} {v : RegistrationStruct}
    (h : mapGet m k = some v) : (k, v) ∈ m := by
  induction m with
  | nil => simp [mapGet] at h
  | cons q rest ih =>
      obtain ⟨k', v'⟩ := q
      by_cases hk : k' = k
      · subst hk
        simp [mapGet] at h
        simp [h]
      · simp only [mapGet, if_neg hk] at h
        exact List.mem_cons_of_mem _ (ih h)

theorem mapHas_of_mem {m : ComponentMap} {k : Typename} {v : RegistrationStruct}
    (h : (k, v) ∈ m) : mapHas m k = true := by
  induction m with
  | nil => cases h
  | cons q rest ih =>
      obtain ⟨k', v'⟩ := q
      by_cases hk : k' = k
      · simp [mapHas, mapGet, hk]
      · rcases List.mem_cons.mp h with h' | h'
        · exact absurd (congrArg Prod.fst h').symm hk
        · simpa [mapHas, mapGet, hk] using ih h'

theorem mapGet_of_mem_nodup {m : ComponentMap} {k : Typename} {v : RegistrationStruct}
    (hn : KeysNodup m) (h : (k, v) ∈ m) : mapGet m k = some v := by
  induction m with
  | nil => cases h
  | cons q rest ih =>
      obtain ⟨k', v'⟩ := q
      simp only [KeysNodup, List.map_cons, List.nodup_cons] at hn
      rcases List.mem_cons.mp h with h' | h'
      · cases h'
        simp [mapGet]
      · have hk : k' ≠ k := by
          intro hk
          exact hn.1 (hk ▸ List.mem_map.mpr ⟨(k, v), h', rfl⟩)
        simpa [mapGet, hk] using ih hn.2 h'

theorem mem_mapSet {m : ComponentMap} {k : Typename} {v : RegistrationStruct}
    {p : Typename × RegistrationStruct} (h : p ∈ mapSet m k v) :
    p = (k, v) ∨ p ∈ m := by
  induction m with
  | nil => simpa [mapSet] using h
  | cons q rest ih =>
      obtain ⟨k', v'⟩ := q
      by_cases hk : k' = k
      · simp only [mapSet, if_pos hk] at h
        rcases List.mem_cons.mp h with h' | h'
        · exact Or.inl h'
        · exact Or.inr (List.mem_cons_of_mem _ h')
      · simp only [mapSet, if_neg hk] at h
        rcases List.mem_cons.mp h with h' | h'
        · exact Or.inr (h' ▸ List.mem_cons_self _ _)
        · rcases ih h' with h'' | h''
          · exact Or.inl h''
          · exact Or.inr (List.mem_cons_of_mem _ h'')

theorem mapGet_mapSet_self {m : ComponentMap} {k : Typename} {v : RegistrationStruct} :
    mapGet (mapSet m k v) k = some v := by
  induction m with
  | nil => simp [mapSet, mapGet]
  | cons q rest ih =>
      obtain ⟨k', v'⟩ := q
      by_cases hk : k' = k
      · simp [mapSet, mapGet, hk]
      · simpa [mapSet, mapGet, hk] using ih

theorem mapGet_mapSet_ne {m : ComponentMap} {k k' : Typename} {v : RegistrationStruct}
    (h : k ≠ k') : mapGet (mapSet m k v) k' = mapGet m k' := by
  induction m with
  | nil => simp [mapSet, mapGet, h]
  | cons q rest ih =>
      obtain ⟨a, b⟩ := q
      by_cases ha : a = k
      · subst ha
        simp [mapSet, mapGet, h]
      · by_cases ha' : a = k'
        · subst ha'
          simp [mapSet, mapGet, ha, Ne.symm h]
        · simpa [mapSet, mapGet, ha, ha'] using ih

theorem mapHas_mapSet {m : ComponentMap} {k k' : Typename} {v : RegistrationStruct} :
    mapHas (mapSet m k v) k' = (decide (k = k') || mapHas m k') := by
  by_cases h : k = k'
  · subst h
    simp [mapHas, mapGet_mapSet_self]
  · simp [mapHas, mapGet_mapSet_ne h, h]

theorem keys_mapSet_of_has {m : ComponentMap} {k : Typename} {v : RegistrationStruct}
    (h : mapHas m k = true) :
    (mapSet m k v).map Prod.fst = m.map Prod.fst := by
  induction m with
  | nil => simp [mapHas, mapGet] at h
  | cons q rest ih =>
      obtain ⟨k', v'⟩ := q
      by_cases hk : k' = k
      · simp [mapSet, hk]
      · simp only [mapHas, mapGet, if_neg hk] at h
        simp [mapSet, hk, ih h]

theorem mapSet_of_not_has {m : ComponentMap} {k : Typename} {v : RegistrationStruct}
    (h : mapHas m k = false) : mapSet m k v = m ++ [(k, v)] := by
  induction m with
  | nil => simp [mapSet]
  | cons q rest ih =>
      obtain ⟨k', v'⟩ := q
      by_cases hk : k' = k
      · simp [mapHas, mapGet, hk] at h
      · simp only [mapHas, mapGet, if_neg hk] at h
        simp [mapSet, hk, ih h]

theorem keysNodup_mapSet {m : ComponentMap} {k : Typename} {v : RegistrationStruct}
    (hn : KeysNodup m) : KeysNodup (mapSet m k v) := by
  by_cases h : mapHas m k = true
  · unfold KeysNodup
    rw [keys_mapSet_of_has h]
    exact hn
  · have h' : mapHas m k = false := by simpa using h
    rw [mapSet_of_not_has h']
    unfold KeysNodup
    rw [List.map_append, List.nodup_append]
    refine ⟨hn, by simp, ?_⟩
    intro a ha hb
    simp at hb
    subst hb
    rcases List.mem_map.mp ha with ⟨p, hp, hk⟩
    obtain ⟨pk, pv⟩ := p
    cases hk
    rw [mapHas_of_mem hp] at h'
    cases h'

theorem mapHas_append {a b : ComponentMap} {k : Typename} :
    mapHas (a ++ b) k = (mapHas a k || mapHas b k) := by
  induction a with
  | nil => simp [mapHas, mapGet]
  | cons q rest ih =>
      obtain ⟨k', v'⟩ := q
      by_cases hk : k' = k
      · simp [mapHas, mapGet, hk]
      · simpa [mapHas, mapGet, hk] using ih

theorem mapSet_mapSet_same {m : ComponentMap} {k : Typename} {v v' : RegistrationStruct} :
    mapSet (mapSet m k v) k v' = mapSet m k v' := by
  induction m with
  | nil => simp [mapSet]
  | cons q rest ih =>
      obtain ⟨a, b⟩ := q
      by_cases ha : a = k
      · simp [mapSet, ha]
      · simp [mapSet, ha, ih]

theorem mapHas_exists_mem {m : ComponentMap} {k : Typename}
    (h : mapHas m k = true) : ∃ v, (k, v) ∈ m := by
  unfold mapHas at h
  obtain ⟨v, hv⟩ := Option.isSome_iff_exists.mp h
  exact ⟨v, mapGet_mem hv⟩

/-! ## Invariants of the fragment-collection walk -/

/-- Every entry of `m` is the `components` registration stored under its
key. -/
def Canon (components m : ComponentMap) : Prop :=
  ∀ p ∈ m, mapGet components p.1 = some p.2

/-- Every registered dependency of every entry of `m` is either already
present in `m` or still pending. -/
def PendingClosed (components m : ComponentMap) (pending : List Typename) : Prop :=
  ∀ p ∈ m, ∀ d ∈ p.2.dependencies, ∀ r', mapGet components d = some r' →
    mapHas m d = true ∨ d ∈ pending

theorem pendingClosed_drop {components m : ComponentMap} {d : Typename}
    {l : List Typename} (hd : mapGet components d = none)
    (h : PendingClosed components m (d :: l)) : PendingClosed components m l := by
  intro p hp d' hd' r' hr'
  rcases h p hp d' hd' r' hr' with h' | h'
  · exact Or.inl h'
  · rcases List.mem_cons.mp h' with h'' | h''
    · subst h''
      rw [hd] at hr'
      cases hr'
    · exact Or.inr h''

theorem pendingClosed_of_has {components m : ComponentMap} {d : Typename}
    {l : List Typename} (hd : mapHas m d = true)
    (h : PendingClosed components m (d :: l)) : PendingClosed components m l := by
  intro p hp d' hd' r' hr'
  rcases h p hp d' hd' r' hr' with h' | h'
  · exact Or.inl h'
  · rcases List.mem_cons.mp h' with h'' | h''
    · subst h''
      exact Or.inl hd
    · exact Or.inr h''

/-- Everything the walk guarantees about its result map `m` relative to
the map `c` it started from. -/
def CollectPost (components c m : ComponentMap) : Prop :=
  (∀ k, mapHas c k = true → mapHas m k = true) ∧
  (Canon components c → Canon components m) ∧
  (KeysNodup c → KeysNodup m) ∧
  (∀ pending, PendingClosed components c pending → PendingClosed components m pending)

theorem collectPost_rfl {components c : ComponentMap} : CollectPost components c c :=
  ⟨fun _ h => h, fun h => h, fun h => h, fun _ h => h⟩

theorem collectPost_trans {components a b c : ComponentMap}
    (h₁ : CollectPost components a b) (h₂ : CollectPost components b c) :
    CollectPost components a c :=
  ⟨fun k hk => h₂.1 k (h₁.1 k hk),
   fun h => h₂.2.1 (h₁.2.1 h),
   fun h => h₂.2.2.1 (h₁.2.2.1 h),
   fun pending h => h₂.2.2.2 pending (h₁.2.2.2 pending h)⟩

/-- The walk's guarantee, at a given fuel, for
`recursivelyCollectFragments` itself. -/
def RPost (components : ComponentMap) (fuel : Nat) : Prop :=
  ∀ value c m, mapGet components value.__typename = some value →
    recursivelyCollectFragments components fuel value c = some m →
    CollectPost components c m ∧ mapHas m value.__typename = true

/-- The walk's guarantee, at a given fuel, for the dependency loop. -/
def QPost (components : ComponentMap) (fuel : Nat) : Prop :=
  ∀ deps c m, collectDeps components fuel deps c = some m →
    (∀ k, mapHas c k = true → mapHas m k = true) ∧
    (Canon components c → Canon components m) ∧
    (KeysNodup c → KeysNodup m) ∧
    (∀ pending, PendingClosed components c (deps ++ pending) →
      PendingClosed components m pending)

theorem collect_q_of_r {components : ComponentMap} (hp : Paired components)
    {fuel : Nat} (hr : RPost components fuel) : QPost components fuel := by
  intro deps
  induction deps with
  | nil =>
      intro c m h
      replace h : some c = some m := h
      cases h
      exact ⟨fun _ h => h, fun h => h, fun h => h, fun _ h => h⟩
  | cons d rest ih =>
      intro c m h
      rcases hd : mapGet components d with _ | next
      · replace h : collectDeps components fuel rest c = some m := by
          rw [collectDeps, collectDepsWith, hd] at h
          exact h
        obtain ⟨hmono, hcanon, hnodup, hpc⟩ := ih c m h
        refine ⟨hmono, hcanon, hnodup, fun pending hc => ?_⟩
        exact hpc pending (pendingClosed_drop hd (by simpa using hc))
      · rcases hnext : recursivelyCollectFragments components fuel next c with _ | c'
        · exfalso
          simp [collectDeps, collectDepsWith, hd, hnext] at h
        · replace h : collectDeps components fuel rest c' = some m := by
            simp only [collectDeps, collectDepsWith, hd, hnext] at h
            exact h
          have hnt : next.__typename = d := (hp _ (mapGet_mem hd)).symm
          have hval : mapGet components next.__typename = some next := by
            rw [hnt]
            exact hd
          obtain ⟨post₁, hhas⟩ := hr next c c' hval hnext
          have hhasd : mapHas c' d = true := hnt ▸ hhas
          obtain ⟨hmono, hcanon, hnodup, hpc⟩ := ih c' m h
          refine ⟨fun k hk => hmono k (post₁.1 k hk),
            fun hc => hcanon (post₁.2.1 hc),
            fun hc => hnodup (post₁.2.2.1 hc),
            fun pending hc => ?_⟩
          have hc' : PendingClosed components c' (d :: (rest ++ pending)) := by
            have := post₁.2.2.2 (d :: rest ++ pending) (by simpa using hc)
            simpa using this
          exact hpc pending (pendingClosed_of_has hhasd hc')

theorem collect_r_succ {components : ComponentMap}
    {fuel : Nat} (hq : QPost components fuel) : RPost components (fuel + 1) := by
  intro value c m hval h
  replace h : collectDeps components fuel value.dependencies
      (mapSet c value.__typename value) = some m := h
  obtain ⟨hmono, hcanon, hnodup, hpc⟩ := hq value.dependencies _ m h
  have hmono₀ : ∀ k, mapHas c k = true →
      mapHas (mapSet c value.__typename value) k = true := by
    intro k hk
    rw [mapHas_mapSet, hk]
    simp
  refine ⟨⟨fun k hk => hmono k (hmono₀ k hk), ?_, ?_, ?_⟩, ?_⟩
  · intro hc
    refine hcanon ?_
    intro p hp'
    rcases mem_mapSet hp' with h' | h'
    · subst h'
      exact hval
    · exact hc p h'
  · intro hc
    exact hnodup (keysNodup_mapSet hc)
  · intro pending hc
    refine hpc pending ?_
    intro p hp' d hd r' hr'
    rcases mem_mapSet hp' with h' | h'
    · subst h'
      exact Or.inr (List.mem_append.mpr (Or.inl hd))
    · rcases hc p h' d hd r' hr' with h'' | h''
      · exact Or.inl (hmono₀ d h'')
      · exact Or.inr (List.mem_append.mpr (Or.inr h''))
  · refine hmono value.__typename ?_
    rw [mapHas, mapGet_mapSet_self]
    rfl

theorem collect_master {components : ComponentMap} (hp : Paired components) :
    ∀ fuel, RPost components fuel ∧ QPost components fuel := by
  intro fuel
  induction fuel with
  | zero =>
      have hr : RPost components 0 := by
        intro value c m _ h
        cases h
      exact ⟨hr, collect_q_of_r hp hr⟩
  | succ fuel ih =>
      have hr : RPost components (fuel + 1) := collect_r_succ ih.2
      exact ⟨hr, collect_q_of_r hp hr⟩

theorem collectAll_post {components : ComponentMap} (hp : Paired components)
    {fuel : Nat} : ∀ values c m,
    (∀ v ∈ values, mapGet components v.__typename = some v) →
    collectAll components values c fuel = some m →
    CollectPost components c m ∧ ∀ v ∈ values, mapHas m v.__typename = true := by
  intro values
  induction values with
  | nil =>
      intro c m _ h
      replace h : some c = some m := h
      cases h
      exact ⟨collectPost_rfl, by simp⟩
  | cons v rest ih =>
      intro c m hv h
      rcases hfirst : recursivelyCollectFragments components fuel v c with _ | c'
      · rw [collectAll, hfirst] at h
        cases h
      · replace h : collectAll components rest c' fuel = some m := by
          rw [collectAll, hfirst] at h
          exact h
        obtain ⟨post₁, hhas⟩ :=
          (collect_master hp fuel).1 v c c' (hv v (List.mem_cons_self _ _)) hfirst
        obtain ⟨post₂, hrest⟩ := ih c' m (fun w hw => hv w (List.mem_cons_of_mem _ hw)) h
        refine ⟨collectPost_trans post₁ post₂, fun w hw => ?_⟩
        rcases List.mem_cons.mp hw with h' | h'
        · subst h'
          exact post₂.1 _ hhas
        · exact hrest w h'

/-! ## Lemmas about `scope` -/

theorem scope_fold_append (s : Scope) : ∀ (l acc : ComponentMap),
    (∀ p ∈ l, p.1 = p.2.__typename) → (l.map Prod.fst).Nodup →
    (∀ p ∈ l, mapHas acc p.1 = false) →
    l.foldl (fun acc p => if s ∈ p.2.scope then mapSet acc p.2.__typename p.2 else acc) acc
      = acc ++ l.filter (fun p => decide (s ∈ p.2.scope)) := by
  intro l
  induction l with
  | nil => intro acc _ _ _; simp
  | cons q rest ih =>
      intro acc hpair hnodup hfresh
      obtain ⟨k, v⟩ := q
      have hk : k = v.__typename := hpair (k, v) (List.mem_cons_self _ _)
      rw [List.map_cons, List.nodup_cons] at hnodup
      by_cases hs : s ∈ v.scope
      · rw [List.foldl_cons, if_pos hs, ← hk,
          mapSet_of_not_has (hfresh (k, v) (List.mem_cons_self _ _))]
        rw [ih (acc ++ [(k, v)])
          (fun p hp => hpair p (List.mem_cons_of_mem _ hp))
          hnodup.2 ?_]
        · rw [List.filter_cons, if_pos (by simpa using hs)]
          simp
        · intro p hp
          rw [mapHas_append, hfresh p (List.mem_cons_of_mem _ hp)]
          have hne : k ≠ p.1 := by
            intro he
            exact hnodup.1 (he ▸ List.mem_map.mpr ⟨p, hp, rfl⟩)
          simp [mapHas, mapGet, hne]
      · rw [List.foldl_cons, if_neg hs]
        rw [ih acc (fun p hp => hpair p (List.mem_cons_of_mem _ hp)) hnodup.2
          (fun p hp => hfresh p (List.mem_cons_of_mem _ hp))]
        rw [List.filter_cons, if_neg (by simpa using hs)]

theorem scopeComponents_eq_filter {st : PigeonState} {s : Scope}
    (hp : Paired st) (hn : KeysNodup st) :
    scopeComponents st s = st.filter (fun p => decide (s ∈ p.2.scope)) := by
  unfold scopeComponents
  have := scope_fold_append s st [] hp hn (by intro p _; rfl)
  simpa using this

theorem mem_scopeComponents_iff {st : PigeonState} {s : Scope}
    {p : Typename × RegistrationStruct} (hp : Paired st) (hn : KeysNodup st) :
    p ∈ scopeComponents st s ↔ p ∈ st ∧ s ∈ p.2.scope := by
  rw [scopeComponents_eq_filter hp hn, List.mem_filter]
  simp

theorem scopeComponents_keysNodup {st : PigeonState} {s : Scope}
    (hp : Paired st) (hn : KeysNodup st) : KeysNodup (scopeComponents st s) := by
  rw [scopeComponents_eq_filter hp hn]
  exact ((List.filter_sublist _).map Prod.fst).nodup hn

theorem scopeComponents_paired {st : PigeonState} {s : Scope}
    (hp : Paired st) (hn : KeysNodup st) : Paired (scopeComponents st s) := by
  intro p hmem
  exact hp p ((mem_scopeComponents_iff hp hn).mp hmem).1

theorem scopeComponents_get {st : PigeonState} {s : Scope} {k : Typename}
    {v : RegistrationStruct} (hp : Paired st) (hn : KeysNodup st)
    (h : mapGet (scopeComponents st s) k = some v) : mapGet st k = some v :=
  mapGet_of_mem_nodup hn ((mem_scopeComponents_iff hp hn).mp (mapGet_mem h)).1

theorem scopeComponents_values_canon {st : PigeonState} {s : Scope}
    (hp : Paired st) (hn : KeysNodup st) :
    ∀ v ∈ mapValues (scopeComponents st s), mapGet st v.__typename = some v := by
  intro v hv
  rcases List.mem_map.mp hv with ⟨p, hp', rfl⟩
  have hmem := ((mem_scopeComponents_iff hp hn).mp hp').1
  have hkey : p.1 = p.2.__typename := hp p hmem
  rw [← hkey]
  exact mapGet_of_mem_nodup hn (by cases p; exact hmem)

theorem scopeComponents_mapHas {st : PigeonState} {s : Scope} {k : Typename}
    (hp : Paired st) (hn : KeysNodup st)
    (h : mapHas (scopeComponents st s) k = true) : mapHas st k = true := by
  obtain ⟨v, hv⟩ := mapHas_exists_mem h
  exact mapHas_of_mem ((mem_scopeComponents_iff hp hn).mp hv).1

/-! ## Lemmas about `validate` -/

theorem validationPromises_append {sc : ComponentMap} (a b : List Record) :
    validationPromises sc (a ++ b) =
      validationPromises sc a ++ validationPromises sc b := by
  induction a with
  | nil => simp [validationPromises]
  | cons r rest ih =>
      rw [List.cons_append, validationPromises, validationPromises]
      rcases h : mapGet sc r.__typename with _ | comp
      · exact ih
      · rw [List.cons_append, ih]

theorem validationPromises_eq_filterMap {sc : ComponentMap} (data : List Record) :
    validationPromises sc data =
      data.filterMap
        (fun r => (mapGet sc r.__typename).map (fun comp => comp.schema r)) := by
  induction data with
  | nil => simp [validationPromises]
  | cons r rest ih =>
      rw [validationPromises, List.filterMap_cons]
      rcases h : mapGet sc r.__typename with _ | comp
      · simpa [h] using ih
      · simp only [h, Option.map_some]
        rw [ih]
        rfl

theorem promiseAll_ok_forall {ps : List (Except ZodError Record)}
    {res : List Record} (h : promiseAll ps = Except.ok res) :
    List.Forall₂ (fun p out => p = Except.ok out) ps res := by
  induction ps generalizing res with
  | nil =>
      replace h : Except.ok [] = Except.ok res := h
      cases h
      exact List.Forall₂.nil
  | cons p rest ih =>
      rcases p with e | v
      · replace h : (Except.error e : Except ZodError (List Record)) = Except.ok res := h
        cases h
      · replace h : (promiseAll rest).map (fun vs => v :: vs) = Except.ok res := h
        rcases hrest : promiseAll rest with e | res'
        · rw [hrest] at h
          cases h
        · rw [hrest] at h
          replace h : Except.ok (v :: res') = Except.ok res := h
          cases h
          exact List.Forall₂.cons rfl (ih hrest)

theorem promiseAll_ok_iff (ps : List (Except ZodError Record)) :
    (∃ res, promiseAll ps = Except.ok res) ↔ ∀ p ∈ ps, ∃ v, p = Except.ok v := by
  induction ps with
  | nil => simp [promiseAll]
  | cons p rest ih =>
      rcases p with e | v
      · simp [promiseAll]
      · constructor
        · rintro ⟨res, h⟩
          replace h : (promiseAll rest).map (fun vs => v :: vs) = Except.ok res := h
          rcases hrest : promiseAll rest with e' | res'
          · rw [hrest] at h
            cases h
          · intro q hq
            rcases List.mem_cons.mp hq with h' | h'
            · exact ⟨v, h'⟩
            · exact (ih.mp ⟨res', hrest⟩) q h'
        · intro hall
          obtain ⟨res', hres'⟩ := ih.mpr (fun q hq => hall q (List.mem_cons_of_mem _ hq))
          refine ⟨v :: res', ?_⟩
          show (promiseAll rest).map (fun vs => v :: vs) = Except.ok (v :: res')
          rw [hres']
          rfl

theorem validate_ok_forall {sc : ComponentMap} {data : List Record}
    {res : List Record} (h : validate sc data = Except.ok res) :
    List.Forall₂
      (fun r out => ∃ comp, mapGet sc r.__typename = some comp ∧
        comp.schema r = Except.ok out)
      (data.filter (fun r => mapHas sc r.__typename)) res := by
  induction data generalizing res with
  | nil =>
      replace h : Except.ok [] = Except.ok res := h
      cases h
      simp
  | cons r rest ih =>
      rcases hq : mapGet sc r.__typename with _ | comp
      · have hhas : mapHas sc r.__typename = false := by
          simp [mapHas, hq]
        replace h : validate sc rest = Except.ok res := by
          unfold validate at h ⊢
          rw [validationPromises, hq] at h
          exact h
        rw [List.filter_cons, hhas]
        exact ih h
      · have hhas : mapHas sc r.__typename = true := by
          simp [mapHas, hq]
        replace h : promiseAll (comp.schema r :: validationPromises sc rest)
            = Except.ok res := by
          unfold validate at h
          rw [validationPromises, hq] at h
          exact h
        rcases hs : comp.schema r with e | v
        · rw [hs] at h
          replace h : (Except.error e : Except ZodError (List Record)) = Except.ok res := h
          cases h
        · rw [hs] at h
          replace h : (promiseAll (validationPromises sc rest)).map (fun vs => v :: vs)
              = Except.ok res := h
          rcases hrest : promiseAll (validationPromises sc rest) with e' | res'
          · rw [hrest] at h
            cases h
          · rw [hrest] at h
            replace h : Except.ok (v :: res') = Except.ok res := h
            cases h
            rw [List.filter_cons, hhas]
            exact List.Forall₂.cons ⟨comp, hq, hs⟩ (ih hrest)

theorem validate_ok_iff (sc : ComponentMap) (data : List Record) :
    (∃ res, validate sc data = Except.ok res) ↔
      ∀ r ∈ data, ∀ comp, mapGet sc r.__typename = some comp →
        ∃ v, comp.schema r = Except.ok v := by
  unfold validate
  rw [promiseAll_ok_iff, validationPromises_eq_filterMap]
  constructor
  · intro hall r hr comp hcomp
    exact hall (comp.schema r)
      (List.mem_filterMap.mpr ⟨r, hr, by rw [hcomp]; rfl⟩)
  · intro hall p hp
    obtain ⟨r, hr, hf⟩ := List.mem_filterMap.mp hp
    rcases hq : mapGet sc r.__typename with _ | comp
    · rw [hq] at hf
      cases hf
    · rw [hq] at hf
      replace hf : some (comp.schema r) = some p := hf
      cases hf
      exact hall r hr comp hq

/-! ## Invariants established by `register` -/

theorem register_paired {st : PigeonState} (hp : Paired st)
    (c : RegistrationStruct) : Paired (register st c) := by
  intro p hmem
  rcases mem_mapSet hmem with h | h
  · subst h
    rfl
  · exact hp p h

theorem register_keysNodup {st : PigeonState} (hn : KeysNodup st)
    (c : RegistrationStruct) : KeysNodup (register st c) :=
  keysNodup_mapSet hn

/-! ## Termination of the walk on ranked (acyclic) dependency graphs -/

/-- A rank function witnessing that the registered dependency graph is
acyclic: every registered dependency edge strictly decreases the rank. -/
abbrev Ranked (components : ComponentMap) (rank : Typename → Nat) : Prop :=
  ∀ p ∈ components, ∀ d ∈ p.2.dependencies, ∀ q ∈ components, q.1 = d →
    rank d < rank p.1

theorem rcf_isSome_of_ranked {st : PigeonState} {rank : Typename → Nat}
    (hp : Paired st) (hr : Ranked st rank) :
    ∀ fuel value c, mapGet st value.__typename = some value →
      rank value.__typename < fuel →
      (recursivelyCollectFragments st fuel value c).isSome = true := by
  intro fuel
  induction fuel using Nat.strong_induction_on with
  | _ fuel IH =>
      intro value c hval hrank
      rcases fuel with _ | fuel
      · exact absurd hrank (Nat.not_lt_zero _)
      · have hdeps : ∀ d ∈ value.dependencies, ∀ next,
            mapGet st d = some next → rank d < fuel := by
          intro d hd next hnext
          have h1 : rank d < rank value.__typename :=
            hr _ (mapGet_mem hval) d hd _ (mapGet_mem hnext) rfl
          omega
        have inner : ∀ deps,
            (∀ d ∈ deps, ∀ next, mapGet st d = some next → rank d < fuel) →
            ∀ c', (collectDeps st fuel deps c').isSome = true := by
          intro deps
          induction deps with
          | nil => intro _ c'; rfl
          | cons d rest ihd =>
              intro hdr c'
              rcases hdd : mapGet st d with _ | next
              · show (collectDepsWith _ st (d :: rest) c').isSome = true
                simp only [collectDepsWith, hdd]
                exact ihd (fun d' hd' => hdr d' (List.mem_cons_of_mem _ hd')) c'
              · have hnt : next.__typename = d := (hp _ (mapGet_mem hdd)).symm
                have hrd : rank d < fuel :=
                  hdr d (List.mem_cons_self _ _) next hdd
                have hsome := IH fuel (Nat.lt_succ_self _) next c'
                  (by rw [hnt]; exact hdd) (by rw [hnt]; exact hrd)
                obtain ⟨c'', hc''⟩ := Option.isSome_iff_exists.mp hsome
                show (collectDepsWith _ st (d :: rest) c').isSome = true
                simp only [collectDepsWith, hdd, hc'']
                exact ihd (fun d' hd' => hdr d' (List.mem_cons_of_mem _ hd')) c''
        exact inner value.dependencies hdeps _

theorem collectAll_isSome_of_ranked {st : PigeonState} {rank : Typename → Nat}
    {B : Nat} (hp : Paired st) (hr : Ranked st rank)
    (hb : ∀ p ∈ st, rank p.1 < B) :
    ∀ values c, (∀ v ∈ values, mapGet st v.__typename = some v) →
      (collectAll st values c (B + 1)).isSome = true := by
  intro values
  induction values with
  | nil => intro c _; rfl
  | cons v rest ihv =>
      intro c hv
      have hval := hv v (List.mem_cons_self _ _)
      have hrank : rank v.__typename < B + 1 := by
        have h1 : rank v.__typename < B := hb (v.__typename, v) (mapGet_mem hval)
        omega
      have hsome := rcf_isSome_of_ranked hp hr (B + 1) v c hval hrank
      obtain ⟨c', hc'⟩ := Option.isSome_iff_exists.mp hsome
      show (collectAll st (v :: rest) c (B + 1)).isSome = true
      rw [collectAll, hc']
      exact ihv c' (fun w hw => hv w (List.mem_cons_of_mem _ hw))

/-! ## Concrete instances used as witnesses and counterexamples -/

/-- A schema that accepts every record unchanged. -/
def okSchema : ZodSchema := fun r => Except.ok r

def wImage : RegistrationStruct :=
  createRegistration
    { __typename := "Image", fragment := "url alt", schema := okSchema
      dependencies := some [], scope := some [] }

def wHero : RegistrationStruct :=
  createRegistration
    { __typename := "Hero", fragment := "title image \x7b ...ImageFragment \x7d"
      schema := okSchema
      dependencies := some ["Image"], scope := some ["page"] }

/-- A pigeon instance with an acyclic dependency graph: `Hero` (scoped to
`page`) depends on `Image`. -/
def wSt : PigeonState := register (register createPigeon wImage) wHero

/-- The map the fragment walk collects for `wSt` scoped to `page`. -/
def wM : ComponentMap := [("Hero", wHero), ("Image", wImage)]

/-- A rank function for `wSt`'s dependency graph. -/
def wRank : Typename → Nat := fun t => if t = "Hero" then 1 else 0

def cycA : RegistrationStruct :=
  createRegistration
    { __typename := "A", fragment := "a \x7b ...BFragment \x7d", schema := okSchema
      dependencies := some ["B"], scope := some ["page"] }

def cycB : RegistrationStruct :=
  createRegistration
    { __typename := "B", fragment := "b \x7b ...AFragment \x7d", schema := okSchema
      dependencies := some ["A"], scope := some [] }

/-- A pigeon instance whose dependency graph has a cycle: `A` and `B`
depend on each other, and `A` is scoped to `page`. -/
def cycSt : PigeonState := register (register createPigeon cycA) cycB

theorem cyc_rcf_none : ∀ fuel,
    (∀ c, recursivelyCollectFragments cycSt fuel cycA c = none) ∧
    (∀ c, recursivelyCollectFragments cycSt fuel cycB c = none) := by
  intro fuel
  induction fuel with
  | zero => exact ⟨fun _ => rfl, fun _ => rfl⟩
  | succ fuel ih =>
      have hB : mapGet cycSt "B" = some cycB := rfl
      have hA : mapGet cycSt "A" = some cycA := rfl
      refine ⟨fun c => ?_, fun c => ?_⟩
      · show collectDepsWith
          (fun next c' => recursivelyCollectFragments cycSt fuel next c')
          cycSt ["B"] (mapSet c "A" cycA) = none
        simp only [collectDepsWith, hB, ih.2]
      · show collectDepsWith
          (fun next c' => recursivelyCollectFragments cycSt fuel next c')
          cycSt ["A"] (mapSet c "B" cycB) = none
        simp only [collectDepsWith, hA, ih.1]

def wHero2 : RegistrationStruct :=
  createRegistration
    { __typename := "Hero", fragment := "title subtitle", schema := okSchema
      dependencies := some [], scope := some ["page"] }

def wHeroRecord : Record := { __typename := "Hero", payload := "x" }

def wOtherRecord : Record := { __typename := "Other", payload := "y" }

/-! ## The claims -/

/-- Claim C1: for every pigeon instance (a component map with the
invariants `register` maintains) and scope `s`, when the fragment walk of
`fragments` completes with collected map `m`, the emitted string is the
collected fragment definitions joined by newlines, and the collected
registrations carry pairwise-distinct typenames: each registered
component's fragment definition appears at most once in the output, even
when several scoped components share a transitive dependency. -/
theorem fragments_dedup (st : PigeonState) (s : Scope) (fuel : Nat)
    (m : ComponentMap) (hp : Paired st) (hn : KeysNodup st)
    (h : collectAll st (mapValues (scopeComponents st s)) [] fuel = some m) :
    fragments st (scopeComponents st s) fuel =
      some (String.intercalate "\n"
        ((mapValues m).map RegistrationStruct.fragment)) ∧
    ((mapValues m).map RegistrationStruct.__typename).Nodup := by
  have hv : ∀ v ∈ mapValues (scopeComponents st s), mapGet st v.__typename = some v :=
    scopeComponents_values_canon hp hn
  obtain ⟨post, _⟩ :=
    collectAll_post hp (mapValues (scopeComponents st s)) [] m hv h
  have hnm : KeysNodup m := post.2.2.1 List.nodup_nil
  have hcm : Canon st m := post.2.1 (fun p hp' => absurd hp' (List.not_mem_nil p))
  refine ⟨by unfold fragments; rw [h]; rfl, ?_⟩
  have hmap : (mapValues m).map RegistrationStruct.__typename = m.map Prod.fst := by
    unfold mapValues
    rw [List.map_map]
    refine List.map_congr_left ?_
    intro p hp'
    exact (hp p (mapGet_mem (hcm p hp'))).symm
  rw [hmap]
  exact hnm

/-- Claim C1's theorem at the concrete instance `wSt` scoped to `page`:
the walk collects `wM` and every hypothesis holds by evaluation. -/
theorem fragments_dedup_witness :
    fragments wSt (scopeComponents wSt "page") 5 =
      some (String.intercalate "\n"
        ((mapValues wM).map RegistrationStruct.fragment)) ∧
    ((mapValues wM).map RegistrationStruct.__typename).Nodup :=
  fragments_dedup wSt "page" 5 wM (by decide) (by decide) rfl

/-- Claim C2: the emitted fragment set is dependency-closed — whenever a
component's registration is collected (hence its fragment emitted), the
registered fragment of every registered typename among its dependencies is
also among the emitted fragments. -/
theorem fragments_dependency_closed (st : PigeonState) (s : Scope) (fuel : Nat)
    (m : ComponentMap) (hp : Paired st) (hn : KeysNodup st)
    (h : collectAll st (mapValues (scopeComponents st s)) [] fuel = some m) :
    fragments st (scopeComponents st s) fuel =
      some (String.intercalate "\n"
        ((mapValues m).map RegistrationStruct.fragment)) ∧
    ∀ p ∈ m, ∀ d ∈ p.2.dependencies, ∀ r', mapGet st d = some r' →
      r'.fragment ∈ (mapValues m).map RegistrationStruct.fragment := by
  have hv : ∀ v ∈ mapValues (scopeComponents st s), mapGet st v.__typename = some v :=
    scopeComponents_values_canon hp hn
  obtain ⟨post, _⟩ :=
    collectAll_post hp (mapValues (scopeComponents st s)) [] m hv h
  have hcm : Canon st m := post.2.1 (fun p hp' => absurd hp' (List.not_mem_nil p))
  have hpc : PendingClosed st m [] :=
    post.2.2.2 [] (fun p hp' => absurd hp' (List.not_mem_nil p))
  refine ⟨by unfold fragments; rw [h]; rfl, ?_⟩
  intro p hpm d hd r' hr'
  rcases hpc p hpm d hd r' hr' with hhas | hmem
  · obtain ⟨v, hv'⟩ := mapHas_exists_mem hhas
    have hget : mapGet st d = some v := hcm (d, v) hv'
    rw [hr'] at hget
    injection hget with he
    subst he
    exact List.mem_map.mpr ⟨r', List.mem_map.mpr ⟨(d, r'), hv', rfl⟩, rfl⟩
  · cases hmem

/-- Claim C2's theorem at the concrete instance `wSt` scoped to `page`:
the scoped `Hero` drags its registered dependency `Image` into the emitted
set. -/
theorem fragments_dependency_closed_witness :
    fragments wSt (scopeComponents wSt "page") 6 =
      some (String.intercalate "\n"
        ((mapValues wM).map RegistrationStruct.fragment)) ∧
    ∀ p ∈ wM, ∀ d ∈ p.2.dependencies, ∀ r', mapGet wSt d = some r' →
      r'.fragment ∈ (mapValues wM).map RegistrationStruct.fragment :=
  fragments_dependency_closed wSt "page" 6 wM (by decide) (by decide) rfl

/-- Claim C3: every record whose typename is among the scoped components
is parsed with exactly the schema registered in the instance under that
typename, and the resolved list consists of the transformed outputs those
schemas produce for those records, in order. -/
theorem validate_correct_schema_per_record (st : PigeonState) (s : Scope)
    (data res : List Record) (hp : Paired st) (hn : KeysNodup st)
    (h : validate (scopeComponents st s) data = Except.ok res) :
    List.Forall₂
      (fun r out => ∃ comp, mapGet st r.__typename = some comp ∧
        comp.schema r = Except.ok out)
      (data.filter (fun r => mapHas (scopeComponents st s) r.__typename)) res := by
  refine List.Forall₂.imp ?_ (validate_ok_forall h)
  intro r out hro
  obtain ⟨comp, hc, hs⟩ := hro
  exact ⟨comp, scopeComponents_get hp hn hc, hs⟩

/-- Claim C3's theorem at the concrete instance `wSt`: the `Hero` record
is parsed with the `Hero` schema and the `Other` record is skipped. -/
theorem validate_correct_schema_per_record_witness :
    List.Forall₂
      (fun r out => ∃ comp, mapGet wSt r.__typename = some comp ∧
        comp.schema r = Except.ok out)
      ([wHeroRecord, wOtherRecord].filter
        (fun r => mapHas (scopeComponents wSt "page") r.__typename))
      [wHeroRecord] :=
  validate_correct_schema_per_record wSt "page" [wHeroRecord, wOtherRecord]
    [wHeroRecord] (by decide) (by decide) rfl

/-- Claim C4: `validate` resolves exactly when every record whose typename
is among the scoped components satisfies its registered schema, and it
rejects with a `ZodError` exactly when some such record does not. -/
theorem validate_ok_iff_all_valid (st : PigeonState) (s : Scope)
    (data : List Record) :
    ((∃ res, validate (scopeComponents st s) data = Except.ok res) ↔
      ∀ r ∈ data, ∀ comp, mapGet (scopeComponents st s) r.__typename = some comp →
        ∃ v, comp.schema r = Except.ok v) ∧
    ((∃ e, validate (scopeComponents st s) data = Except.error e) ↔
      ¬ ∀ r ∈ data, ∀ comp, mapGet (scopeComponents st s) r.__typename = some comp →
        ∃ v, comp.schema r = Except.ok v) := by
  have hiff := validate_ok_iff (scopeComponents st s) data
  refine ⟨hiff, ?_, ?_⟩
  · rintro ⟨e, he⟩ hall
    obtain ⟨res, hres⟩ := hiff.mpr hall
    rw [he] at hres
    cases hres
  · intro hnall
    rcases hv : validate (scopeComponents st s) data with e | res
    · exact ⟨e, rfl⟩
    · exact absurd (hiff.mp ⟨res, hv⟩) hnall

/-- Claim C5: a record whose typename is not registered in the instance is
dropped by `validate`: removing it from the input leaves the outcome
unchanged, so no schema is applied to it, no error is raised for it and
nothing for it appears in the resolved result. -/
theorem validate_drops_unregistered (st : PigeonState) (s : Scope) (r : Record)
    (pre post : List Record) (hp : Paired st) (hn : KeysNodup st)
    (hr : mapHas st r.__typename = false) :
    validate (scopeComponents st s) (pre ++ r :: post)
      = validate (scopeComponents st s) (pre ++ post) := by
  have hsc : mapGet (scopeComponents st s) r.__typename = none := by
    rcases hh : mapGet (scopeComponents st s) r.__typename with _ | v
    · rfl
    · exfalso
      have hhas : mapHas (scopeComponents st s) r.__typename = true := by
        simp [mapHas, hh]
      rw [scopeComponents_mapHas hp hn hhas] at hr
      cases hr
  unfold validate
  rw [validationPromises_append, validationPromises_append]
  have hskip : validationPromises (scopeComponents st s) (r :: post)
      = validationPromises (scopeComponents st s) post := by
    rw [validationPromises, hsc]
  rw [hskip]

/-- Claim C5's theorem at the concrete instance `wSt`: the unregistered
`Other` record contributes nothing to `validate`. -/
theorem validate_drops_unregistered_witness :
    validate (scopeComponents wSt "page") ([wHeroRecord] ++ wOtherRecord :: [])
      = validate (scopeComponents wSt "page") ([wHeroRecord] ++ []) :=
  validate_drops_unregistered wSt "page" wOtherRecord [wHeroRecord] []
    (by decide) (by decide) (by decide)

/-- Claim C6: for a non-empty scope `s`, `query` emits exactly one
`...on T { ...F }` line per registered component whose scope array
contains `s` (in registration order, joined by newlines), and no line for
any other component. -/
theorem query_scoped_lines (st : PigeonState) (s : Scope) (hp : Paired st)
    (hn : KeysNodup st) (_hs : s ≠ "") :
    query (scopeComponents st s) =
      String.intercalate "\n"
        ((st.filter (fun p => decide (s ∈ p.2.scope))).map
          (fun p => "...on " ++ p.1 ++ " \x7b ..." ++ p.2.fragmentName ++ " \x7d")) := by
  unfold query
  rw [scopeComponents_eq_filter hp hn]

/-- Claim C6's theorem at the concrete instance `wSt`: only `Hero` is
scoped to `page`, so the selection set is its single line. -/
theorem query_scoped_lines_witness :
    query (scopeComponents wSt "page") =
      String.intercalate "\n"
        ((wSt.filter (fun p => decide ("page" ∈ p.2.scope))).map
          (fun p => "...on " ++ p.1 ++ " \x7b ..." ++ p.2.fragmentName ++ " \x7d")) :=
  query_scoped_lines wSt "page" (by decide) (by decide) (by decide)

/-- Claim C7 (amended): the depth-first walk of `fragments` terminates
whenever the registered dependency graph is acyclic — witnessed by a rank
function that strictly decreases along every registered dependency edge —
with a call-stack budget one beyond any bound on the ranks.  (On cyclic
graphs the walk does not terminate: see the counterexample.) -/
theorem fragments_terminate_of_ranked (st : PigeonState) (s : Scope)
    (rank : Typename → Nat) (B : Nat) (hp : Paired st) (hn : KeysNodup st)
    (hr : Ranked st rank) (hb : ∀ p ∈ st, rank p.1 < B) :
    ∃ out, fragments st (scopeComponents st s) (B + 1) = some out := by
  have hv : ∀ v ∈ mapValues (scopeComponents st s), mapGet st v.__typename = some v :=
    scopeComponents_values_canon hp hn
  have hsome := collectAll_isSome_of_ranked hp hr hb
    (mapValues (scopeComponents st s)) [] hv
  obtain ⟨m, hm⟩ := Option.isSome_iff_exists.mp hsome
  refine ⟨String.intercalate "\n" ((mapValues m).map RegistrationStruct.fragment), ?_⟩
  unfold fragments
  rw [hm]
  rfl

/-- Claim C7's amended theorem at the concrete acyclic instance `wSt`,
ranked by `wRank` and bounded by 2. -/
theorem fragments_terminate_of_ranked_witness :
    ∃ out, fragments wSt (scopeComponents wSt "page") 3 = some out :=
  fragments_terminate_of_ranked wSt "page" wRank 2
    (by decide) (by decide) (by decide) (by decide)

/-- Claim C7 counterexample: on the concrete instance `cycSt`, whose
registered dependency graph has the cycle `A → B → A` with `A` scoped to
`page`, the walk of `fragments` exhausts every call-stack budget: no fuel
makes it complete, refuting termination for every shape of the graph. -/
theorem fragments_cycle_no_fuel :
    ¬ ∃ fuel out, fragments cycSt (scopeComponents cycSt "page") fuel = some out := by
  rintro ⟨fuel, out, h⟩
  have hval : mapValues (scopeComponents cycSt "page") = [cycA] := rfl
  unfold fragments at h
  rw [hval, collectAll, (cyc_rcf_none fuel).1] at h
  simp at h

/-- Claim C8: the only operation of a pigeon instance that changes the
registered component map is `register`; `scope` and the `query`,
`fragments` and `validate` operations it returns leave the state exactly
as it was — the system caches and persists nothing across operations. -/
theorem step_frame (st : PigeonState) (op : PigeonOp) :
    (step st op).1 = st ∨ ∃ c, op = PigeonOp.register c := by
  cases op with
  | register c => exact Or.inr ⟨c, rfl⟩
  | scope s => exact Or.inl rfl
  | query s => exact Or.inl rfl
  | fragments s fuel => exact Or.inl rfl
  | validate s data => exact Or.inl rfl

/-- Claim C9: `register` is last-write-wins per typename — registering two
components with the same `__typename` in sequence leaves exactly the state
that registering only the later one would leave, so every subsequent
`scope`, `query`, `fragments` and `validate` behaves as if only the later
registration existed (the JavaScript `Map.set` keeps the key's original
insertion position, which `mapSet` mirrors). -/
theorem register_last_write_wins (st : PigeonState)
    (c₁ c₂ : RegistrationStruct) (h : c₁.__typename = c₂.__typename) :
    register (register st c₁) c₂ = register st c₂ := by
  unfold register
  rw [h, mapSet_mapSet_same]

/-- Claim C9's theorem at concrete registrations: two `Hero` components
registered in sequence collapse to the later one. -/
theorem register_last_write_wins_witness :
    register (register createPigeon wHero) wHero2 = register createPigeon wHero2 :=
  register_last_write_wins createPigeon wHero wHero2 rfl

/-- Claim C10: `validate` loses no in-scope record and preserves input
order — the promise list is exactly one parse per record whose typename is
scoped, in input order; on success the resolved list has exactly one
element per such record, and its elements are those promises' resolutions
in the same relative order. -/
theorem validate_order_preserved (st : PigeonState) (s : Scope)
    (data res : List Record)
    (h : validate (scopeComponents st s) data = Except.ok res) :
    validationPromises (scopeComponents st s) data =
      data.filterMap
        (fun r => (mapGet (scopeComponents st s) r.__typename).map
          (fun comp => comp.schema r)) ∧
    res.length =
      (data.filter (fun r => mapHas (scopeComponents st s) r.__typename)).length ∧
    List.Forall₂ (fun p out => p = Except.ok out)
      (validationPromises (scopeComponents st s) data) res := by
  refine ⟨validationPromises_eq_filterMap data, ?_, promiseAll_ok_forall h⟩
  exact (validate_ok_forall h).length_eq.symm

/-- Claim C10's theorem at the concrete instance `wSt`: one resolved
element for the single in-scope record, in order. -/
theorem validate_order_preserved_witness :
    validationPromises (scopeComponents wSt "page") [wHeroRecord, wOtherRecord] =
      [wHeroRecord, wOtherRecord].filterMap
        (fun r => (mapGet (scopeComponents wSt "page") r.__typename).map
          (fun comp => comp.schema r)) ∧
    ([wHeroRecord] : List Record).length =
      ([wHeroRecord, wOtherRecord].filter
        (fun r => mapHas (scopeComponents wSt "page") r.__typename)).length ∧
    List.Forall₂ (fun p out => p = Except.ok out)
      (validationPromises (scopeComponents wSt "page") [wHeroRecord, wOtherRecord])
      [wHeroRecord] :=
  validate_order_preserved wSt "page" [wHeroRecord, wOtherRecord] [wHeroRecord] rfl
